import Mathlib

/-!
Verification of the Ed25519 core (`sign/ed25519/ed25519.go`): scalar
arithmetic modulo the group order, signature assembly, and the public
API surface.  Go code is embedded shallowly: `uint64` values are `Nat`
with explicit reduction modulo `2 ^ 64`, byte strings are `List Nat`,
fallible code (Go panics) returns `Option`, and the Go heap (only byte
slices matter here) is an explicit store.  SHA-512 and the curve point
operations live outside the verified sources and are abstract
parameters or are modelled from the specification.
-/

namespace Ed25519

/-- Low limb of the group order: constant `ell0` of `red512`. -/
def ell0 : Nat := 0x5812631a5cf5d3ed

/-- Second limb of the group order: constant `ell1` of `red512`. -/
def ell1 : Nat := 0x14def9dea2f79cd6

/-- Constant `ell160` of `red512` (low limb of `16 * (ℓ - 2 ^ 252)`). -/
def ell160 : Nat := 0x812631a5cf5d3ed0

/-- Constant `ell161` of `red512`. -/
def ell161 : Nat := 0x4def9dea2f79cd65

/-- Constant `ell162` of `red512`. -/
def ell162 : Nat := 0x0000000000000001

/-- The group order ℓ = 2^252 + 27742317777372353535851937790883648493. -/
def ellVal : Nat := 2 ^ 252 + 0x14def9dea2f79cd65812631a5cf5d3ed

/-- Go `bits.Mul64`: the pair (high, low) of the 128-bit product. -/
def mul64 (x y : Nat) : Nat × Nat := (x * y / 2 ^ 64, x * y % 2 ^ 64)

/-- Go `bits.Add64`: the pair (sum mod 2^64, carry out). -/
def add64 (x y c : Nat) : Nat × Nat := ((x + y + c) % 2 ^ 64, (x + y + c) / 2 ^ 64)

/-- Go `bits.Sub64`: the pair (difference mod 2^64, borrow out). -/
def sub64 (x y b : Nat) : Nat × Nat :=
  if y + b ≤ x then (x - y - b, 0) else (2 ^ 64 + x - y - b, 1)

/-- Go unary minus on `uint64` (two's complement negation). -/
def neg64 (x : Nat) : Nat := (2 ^ 64 - x) % 2 ^ 64

/-- Eight 64-bit limbs, the `[8]uint64` array passed to `red512`. -/
structure Words8 where
  w0 : Nat
  w1 : Nat
  w2 : Nat
  w3 : Nat
  w4 : Nat
  w5 : Nat
  w6 : Nat
  w7 : Nat
deriving Repr, DecidableEq

/-- One iteration of the folding loop of `red512` (lines 172-224 of
`ed25519.go`); `sub` tells whether this round subtracts (`i = 0, 2`) or
adds (`i = 1`) the masked partial product.  Returns the updated
`(r0, r1, r2, r3, r4, q0, q1, q2, q3)`. -/
def red512round (sub : Bool) (r0 r1 r2 r3 r4 q0 q1 q2 q3 : Nat) :
    Nat × Nat × Nat × Nat × Nat × Nat × Nat × Nat × Nat :=
  let (h0, s0) := mul64 q0 ell160
  let (h1, s1) := mul64 q1 ell160
  let (h2, s2) := mul64 q2 ell160
  let (h3, s3) := mul64 q3 ell160
  let (s1, c0) := add64 h0 s1 0
  let (s2, c1) := add64 h1 s2 c0
  let (s3, c2) := add64 h2 s3 c1
  let (s4, _) := add64 h3 0 c2
  let (h0, l0) := mul64 q0 ell161
  let (h1, l1) := mul64 q1 ell161
  let (h2, l2) := mul64 q2 ell161
  let (h3, l3) := mul64 q3 ell161
  let (l1, c0) := add64 h0 l1 0
  let (l2, c1) := add64 h1 l2 c0
  let (l3, c2) := add64 h2 l3 c1
  let (l4, _) := add64 h3 0 c2
  let (s1, c0) := add64 s1 l0 0
  let (s2, c1) := add64 s2 l1 c0
  let (s3, c2) := add64 s3 l2 c1
  let (s4, c3) := add64 s4 l3 c2
  let (s5, s6) := add64 l4 0 c3
  let (s2, c0) := add64 s2 q0 0
  let (s3, c1) := add64 s3 q1 c0
  let (s4, c2) := add64 s4 q2 c1
  let (s5, c3) := add64 s5 q3 c2
  let (s6, s7) := add64 s6 0 c3
  let q := q0 ||| q1 ||| q2 ||| q3
  let m := neg64 ((q ||| neg64 q) >>> 63)
  let s0 := s0 &&& m
  let s1 := s1 &&& m
  let s2 := s2 &&& m
  let s3 := s3 &&& m
  if sub then
    let (r0, c0) := sub64 r0 s0 0
    let (r1, c1) := sub64 r1 s1 c0
    let (r2, c2) := sub64 r2 s2 c1
    let (r3, c3) := sub64 r3 s3 c2
    let (r4, _) := sub64 r4 0 c3
    (r0, r1, r2, r3, r4, s4, s5, s6, s7)
  else
    let (r0, c0) := add64 r0 s0 0
    let (r1, c1) := add64 r1 s1 c0
    let (r2, c2) := add64 r2 s2 c1
    let (r3, c3) := add64 r3 s3 c2
    let (r4, _) := add64 r4 0 c3
    (r0, r1, r2, r3, r4, s4, s5, s6, s7)

/-- Transcription of `red512` (`ed25519.go` lines 156-250): reduction of
an eight-limb value; in `full` mode three folding rounds and a
conditional addition precede the final short Barrett step, and the high
limbs are cleared. -/
def red512 (x : Words8) (full : Bool) : Words8 :=
  let st :=
    if full then
      let (r0, r1, r2, r3, r4, q0, q1, q2, q3) :=
        red512round true x.w0 x.w1 x.w2 x.w3 0 x.w4 x.w5 x.w6 x.w7
      let (r0, r1, r2, r3, r4, q0, q1, q2, q3) :=
        red512round false r0 r1 r2 r3 r4 q0 q1 q2 q3
      let (r0, r1, r2, r3, r4, _, _, _, _) :=
        red512round true r0 r1 r2 r3 r4 q0 q1 q2 q3
      let m := neg64 (r4 >>> 63)
      let (r0, c0) := add64 r0 (m &&& ell160) 0
      let (r1, c1) := add64 r1 (m &&& ell161) c0
      let (r2, c2) := add64 r2 (m &&& ell162) c1
      let (r3, c3) := add64 r3 0 c2
      let (r4, _) := add64 r4 (m &&& 1) c3
      (r0, r1, r2, r3, r4)
    else
      (x.w0, x.w1, x.w2, x.w3, 0)
  let (r0, r1, r2, r3, r4) := st
  let q0 := ((r4 <<< 4) % 2 ^ 64) ||| (r3 >>> 60)
  let r3 := r3 &&& (2 ^ 60 - 1)
  let (h0, s0) := mul64 ell0 q0
  let (h1, s1) := mul64 ell1 q0
  let (s1, c0) := add64 h0 s1 0
  let (s2, _) := add64 h1 0 c0
  let (r0, c0) := sub64 r0 s0 0
  let (r1, c1) := sub64 r1 s1 c0
  let (r2, c2) := sub64 r2 s2 c1
  let (r3, _) := sub64 r3 0 c2
  { w0 := r0, w1 := r1, w2 := r2, w3 := r3
    w4 := if full then 0 else x.w4
    w5 := if full then 0 else x.w5
    w6 := if full then 0 else x.w6
    w7 := if full then 0 else x.w7 }

/-- Integer value of the low four limbs (a 256-bit little-endian value). -/
def val4 (x : Words8) : Nat :=
  x.w0 + x.w1 * 2 ^ 64 + x.w2 * 2 ^ 128 + x.w3 * 2 ^ 192

/-- Integer value of all eight limbs (a 512-bit little-endian value). -/
def val8 (x : Words8) : Nat :=
  val4 x + x.w4 * 2 ^ 256 + x.w5 * 2 ^ 320 + x.w6 * 2 ^ 384 + x.w7 * 2 ^ 448

/-- Integer value of a little-endian byte string. -/
def leValBytes (bs : List Nat) : Nat := bs.foldr (fun b acc => b + 256 * acc) 0

/-- Little-endian byte string (of `n` bytes) of a natural number; models
`binary.LittleEndian.PutUint64` when `n = 8`. -/
def leBytes : Nat → Nat → List Nat
  | 0, _ => []
  | n + 1, w => w % 256 :: leBytes n (w / 256)

/-- Go `binary.LittleEndian.Uint64(k[off : off+8])` on a byte list. -/
def uint64LE (bs : List Nat) (off : Nat) : Nat := leValBytes ((bs.drop off).take 8)

/-- Transcription of `reduceModOrder` (`ed25519.go` lines 143-153):
parse `len k / 8` little-endian words into an eight-word array (the
rest zero), run `red512`, and write the words back. -/
def reduceModOrderBytes (k : List Nat) (is512Bit : Bool) : List Nat :=
  let numWords := k.length >>> 3
  let word := fun i => if i < numWords then uint64LE k (8 * i) else 0
  let X := red512 ⟨word 0, word 1, word 2, word 3, word 4, word 5, word 6, word 7⟩ is512Bit
  let out := [X.w0, X.w1, X.w2, X.w3, X.w4, X.w5, X.w6, X.w7]
  ((out.take numWords).map (leBytes 8)).flatten ++ k.drop (8 * numWords)

/-- Transcription of `clamp` (`ed25519.go` lines 131-134): clear the low
three bits of byte 0 and force byte `Size - 1 = 31` into `[64, 128)`.
The argument is the 64-byte SHA-512 output. -/
def clampBytes (k : List Nat) : List Nat :=
  let k := k.set 0 (k.getD 0 0 &&& 248)
  k.set 31 ((k.getD 31 0 &&& 127) ||| 64)

/-- One iteration of the schoolbook loop of `calculateS` (`ed25519.go`
lines 267-285): multiply the four limbs `K` by limb `i` of `a` and add
the five-limb partial product into the accumulator at offset `i`. -/
def calculateSrow (K : List Nat) (a : List Nat) (S : List Nat) (i : Nat) : List Nat :=
  let ai := uint64LE a (8 * i)
  let (h0, l0) := mul64 (K.getD 0 0) ai
  let (h1, l1) := mul64 (K.getD 1 0) ai
  let (h2, l2) := mul64 (K.getD 2 0) ai
  let (h3, l3) := mul64 (K.getD 3 0) ai
  let (l1, c0) := add64 h0 l1 0
  let (l2, c1) := add64 h1 l2 c0
  let (l3, c2) := add64 h2 l3 c1
  let (l4, _) := add64 h3 0 c2
  let (t0, c0) := add64 (S.getD i 0) l0 0
  let (t1, c1) := add64 (S.getD (i + 1) 0) l1 c0
  let (t2, c2) := add64 (S.getD (i + 2) 0) l2 c1
  let (t3, c3) := add64 (S.getD (i + 3) 0) l3 c2
  let (t4, _) := add64 (S.getD (i + 4) 0) l4 c3
  ((((S.set i t0).set (i + 1) t1).set (i + 2) t2).set (i + 3) t3).set (i + 4) t4

/-- Transcription of `calculateS` (`ed25519.go` lines 253-291): the
accumulator starts as `r` in its low four limbs, four schoolbook rows
add `k * a`, and the result is reduced by `red512` in full mode and
serialised as 32 little-endian bytes. -/
def calculateSbytes (r k a : List Nat) : List Nat :=
  let K := [uint64LE k 0, uint64LE k 8, uint64LE k 16, uint64LE k 24]
  let S0 := [uint64LE r 0, uint64LE r 8, uint64LE r 16, uint64LE r 24, 0, 0, 0, 0]
  let S := calculateSrow K a (calculateSrow K a (calculateSrow K a (calculateSrow K a S0 0) 1) 2) 3
  let X := red512 ⟨S.getD 0 0, S.getD 1 0, S.getD 2 0, S.getD 3 0,
                   S.getD 4 0, S.getD 5 0, S.getD 6 0, S.getD 7 0⟩ true
  leBytes 8 X.w0 ++ leBytes 8 X.w1 ++ leBytes 8 X.w2 ++ leBytes 8 X.w3

/-- Modelled from the spec: the byte array `curve.order` is defined in a
source file outside the verified tree; the specification gives the
constant ℓ explicitly, and `Verify` compares against its first 32
little-endian bytes. -/
def orderBytes : List Nat := leBytes 32 ellVal

/-- The loop of `isLessThan` (`ed25519.go` lines 294-300), descending
from index `i`: skip equal bytes, then compare; `none` models the panic
of an out-of-range index. -/
def isLessThanLoop (x y : List Nat) : Nat → Option Bool
  | 0 => do
    let a ← x[0]?
    let b ← y[0]?
    some (decide (a < b))
  | i + 1 => do
    let a ← x[i + 1]?
    let b ← y[i + 1]?
    if a = b then isLessThanLoop x y i else some (decide (a < b))

/-- Transcription of `isLessThan`: the loop starts at `Size - 1 = 31`. -/
def isLessThanM (x y : List Nat) : Option Bool := isLessThanLoop x y 31

/-- Go slice expression `l[i:]`: panics (`none`) when `i` exceeds the
length. -/
def goSliceFrom (l : List Nat) (i : Nat) : Option (List Nat) :=
  if i ≤ l.length then some (l.drop i) else none

/-- Transcription of `Verify` (`ed25519.go` lines 105-129).  The point
operations `FromBytes`, `neg`, `doubleMult` and `ToBytes` live outside
the verified tree and are abstract parameters (`fromBytes` decodes,
`dmEnc` is `doubleMult` composed with `ToBytes`); `H` is the external
SHA-512 oracle.  `none` models a panic. -/
def VerifyM {P : Type} (fromBytes : List Nat → Option P) (negP : P → P)
    (dmEnc : P → List Nat → List Nat → List Nat) (H : List Nat → List Nat)
    (pub msg sig : List Nat) : Option Bool :=
  if pub.length ≠ 32 then none
  else
    match goSliceFrom sig 32 with
    | none => none
    | some sTail =>
      match isLessThanM sTail orderBytes with
      | none => none
      | some isLtOrder =>
        if ¬ isLtOrder then some false
        else
          match fromBytes pub with
          | none => some false
          | some A =>
            let hRAM := reduceModOrderBytes (H (sig.take 32 ++ pub ++ msg)) true
            let enc := dmEnc (negP A) sTail (hRAM.take 32)
            some (decide (enc = sig.take 32))

/-- The third argument `a` that `Sign` passes to `calculateS`
(`ed25519.go` line 99): the clamped low half of `SHA-512(seed)`,
with no reduction modulo ℓ applied. -/
def signScalarA (H : List Nat → List Nat) (priv : List Nat) : List Nat :=
  (clampBytes (H priv)).take 32

/-- Transcription of `Sign` (`ed25519.go` lines 79-101).  `H` is the
external SHA-512 oracle (streamed writes become list concatenation) and
`fmEnc` is the fixed-base multiplication composed with point encoding,
which live outside the verified tree. -/
def SignM (H : List Nat → List Nat) (fmEnc : List Nat → List Nat)
    (priv pub msg : List Nat) : List Nat :=
  let h := clampBytes (H priv)
  let pfx := h.drop 32
  let r := reduceModOrderBytes (H (pfx ++ msg)) true
  let rB := fmEnc (r.take 32)
  let hRAM := reduceModOrderBytes (H (rB ++ pub ++ msg)) true
  rB ++ calculateSbytes (r.take 32) (hRAM.take 32) (signScalarA H priv)

/-- The `KeyPair` struct: two 32-byte fields held by value. -/
structure KeyPairM where
  priv : List Nat
  pub : List Nat
deriving Repr, DecidableEq

/-- Transcription of the `crypto.Signer` method `KeyPair.Sign`
(`ed25519.go` lines 40-45): `rnd` is the unused `io.Reader` argument
(of arbitrary type `R`), `optsHash` the value of `opts.HashFunc()`. -/
def keyPairSign {R : Type} (H : List Nat → List Nat) (fmEnc : List Nat → List Nat)
    (k : KeyPairM) (rnd : R) (msg : List Nat) (optsHash : Nat) :
    Except String (List Nat) :=
  if optsHash ≠ 0 then Except.error ("ed25519: cannot sign hashed message")
  else Except.ok (SignM H fmEnc k.priv k.pub msg)

/-- The Go heap restricted to what the claims need: a list of allocated
byte slices, addressed by index. -/
abbrev Store : Type := List (List Nat)

/-- Bytes of the slice at handle `h`. -/
def readSlice (st : Store) (h : Nat) : List Nat := st.getD h []

/-- Write byte `v` at offset `i` of the slice at handle `h`. -/
def writeSlice (st : Store) (h i v : Nat) : Store :=
  st.set h ((st.getD h []).set i v)

/-- Transcription of `makeCopy` (`ed25519.go` lines 136-140): allocate a
fresh 32-byte slice and copy the array into it; returns the new store
and the handle of the fresh slice. -/
def makeCopyM (st : Store) (bytes : List Nat) : Store × Nat :=
  (st ++ [bytes], st.length)

/-- Transcription of `GetPrivate` (`ed25519.go` line 27). -/
def getPrivateM (st : Store) (k : KeyPairM) : Store × Nat := makeCopyM st k.priv

/-- Transcription of `GetPublic` (`ed25519.go` line 30). -/
def getPublicM (st : Store) (k : KeyPairM) : Store × Nat := makeCopyM st k.pub

/-- Transcription of `NewKeyFromSeed` (`ed25519.go` lines 62-75) over
the explicit store: read the caller's slice, panic (`none`) unless it
has 32 bytes, then hash, clamp, short-reduce, derive the public key
(`fmEnc` abstracts `fixedMult` + `ToBytes`, outside the verified tree)
and copy the seed bytes into the `KeyPair`.  No store cell is written. -/
def newKeyFromSeedM (H : List Nat → List Nat) (fmEnc : List Nat → List Nat)
    (st : Store) (h : Nat) : Option (Store × KeyPairM) :=
  let s := readSlice st h
  if s.length ≠ 32 then none
  else
    let k := clampBytes (H s)
    let scalar := reduceModOrderBytes (k.take 32) false
    some (st, { priv := s, pub := fmEnc scalar })

/-- Concrete stand-in for the hash oracle in closed instances: every
digest is the all-zero 64-byte string. -/
def hashZeros : List Nat → List Nat := fun _ => List.replicate 64 0

/-- Concrete stand-in for the point-encoding parameters in closed
instances. -/
def encZeros : List Nat → List Nat := fun _ => List.replicate 32 0

/-- Concrete key pair used in closed instances. -/
def kpZeros : KeyPairM := { priv := List.replicate 32 0, pub := List.replicate 32 0 }

/-- A 64-byte signature whose S half encodes exactly ℓ (hence is
non-canonical). -/
def sigHighS : List Nat := List.replicate 32 0 ++ orderBytes

/-- A one-slice store holding a 32-byte seed, for closed instances. -/
def stZeros : Store := [List.replicate 32 0]

/-! Helper lemmas about little-endian values and list indexing. -/

theorem leValBytes_nil : leValBytes [] = 0 := rfl

theorem leValBytes_cons (b : Nat) (l : List Nat) :
    leValBytes (b :: l) = b + 256 * leValBytes l := rfl

theorem leValBytes_append (xs ys : List Nat) :
    leValBytes (xs ++ ys) = leValBytes xs + 256 ^ xs.length * leValBytes ys := by
  induction xs with
  | nil => simp [leValBytes]
  | cons b t ih =>
    simp only [List.cons_append, leValBytes_cons, ih, List.length_cons, pow_succ]
    ring

theorem leValBytes_lt (l : List Nat) (h : ∀ b ∈ l, b < 256) :
    leValBytes l < 256 ^ l.length := by
  induction l with
  | nil => simp [leValBytes]
  | cons b t ih =>
    have hb : b < 256 := h b (by simp)
    have ht : leValBytes t < 256 ^ t.length := ih fun x hx => h x (by simp [hx])
    simp only [leValBytes_cons, List.length_cons, pow_succ]
    generalize (256 : Nat) ^ t.length = A at *
    omega

theorem getD_set_self (a d : Nat) :
    ∀ (l : List Nat) (i : Nat), i < l.length → (l.set i a).getD i d = a := by
  intro l
  induction l with
  | nil => intro i hi; simp at hi
  | cons b t ih =>
    intro i hi
    cases i with
    | zero => rfl
    | succ j =>
      simp only [List.set, List.getD, List.get?]
      have : j < t.length := by simpa using hi
      simpa [List.getD] using ih j this

theorem getD_set_ne (a d : Nat) :
    ∀ (l : List Nat) (i j : Nat), i ≠ j → (l.set i a).getD j d = l.getD j d := by
  intro l
  induction l with
  | nil => intro i j _; simp [List.set]
  | cons b t ih =>
    intro i j hij
    cases i with
    | zero =>
      cases j with
      | zero => exact absurd rfl hij
      | succ m => rfl
    | succ n =>
      cases j with
      | zero => rfl
      | succ m =>
        simp only [List.set, List.getD, List.get?]
        simpa [List.getD] using ih n m (fun h => hij (by rw [h]))

theorem getD_take (d : Nat) :
    ∀ (l : List Nat) (n i : Nat), i < n → (l.take n).getD i d = l.getD i d := by
  intro l
  induction l with
  | nil => intro n i _; simp
  | cons b t ih =>
    intro n i hin
    cases n with
    | zero => omega
    | succ m =>
      cases i with
      | zero => rfl
      | succ j =>
        simp only [List.take, List.getD, List.get?]
        simpa [List.getD] using ih m j (by omega)

theorem getD_drop (d : Nat) :
    ∀ (l : List Nat) (n i : Nat), (l.drop n).getD i d = l.getD (n + i) d := by
  intro l
  induction l with
  | nil => intro n i; simp
  | cons b t ih =>
    intro n i
    cases n with
    | zero => simp
    | succ m =>
      have h1 : m + 1 + i = (m + i) + 1 := by omega
      rw [List.drop_succ_cons, ih m i, h1]
      rfl

theorem eq_singleton_of_length_one (l : List Nat) (h : l.length = 1) :
    l = [l.getD 0 0] := by
  cases l with
  | nil => simp at h
  | cons b t =>
    cases t with
    | nil => rfl
    | cons c u => simp at h

theorem readSlice_alloc (st : Store) (b : List Nat) :
    readSlice (st ++ [b]) st.length = b := by
  simp [readSlice, List.getD]

theorem leValBytes_take_succ (l : List Nat) :
    ∀ n, n < l.length →
      leValBytes (l.take (n + 1)) = leValBytes (l.take n) + 256 ^ n * l.getD n 0 := by
  induction l with
  | nil => intro n h; simp at h
  | cons b t ih =>
    intro n h
    cases n with
    | zero => simp [leValBytes_cons, leValBytes_nil, List.getD]
    | succ m =>
      have hm : m < t.length := by simpa using h
      have e1 : (b :: t).take (m + 1 + 1) = b :: t.take (m + 1) := rfl
      have e2 : (b :: t).take (m + 1) = b :: t.take m := rfl
      have e3 : (b :: t).getD (m + 1) 0 = t.getD m 0 := rfl
      rw [e1, leValBytes_cons, ih m hm, e2, leValBytes_cons, e3, pow_succ]
      ring

theorem leValBytes_take_lt (l : List Nat) (n : Nat) (hb : ∀ b ∈ l, b < 256) :
    leValBytes (l.take n) < 256 ^ (l.take n).length :=
  leValBytes_lt _ fun b hm => hb b (List.mem_of_mem_take hm)

theorem isLessThanLoop_correct (x y : List Nat)
    (hxb : ∀ b ∈ x, b < 256) (hyb : ∀ b ∈ y, b < 256) :
    ∀ n, n < x.length → n < y.length →
      isLessThanLoop x y n =
        some (decide (leValBytes (x.take (n + 1)) < leValBytes (y.take (n + 1)))) := by
  intro n
  induction n with
  | zero =>
    intro hx hy
    cases x with
    | nil => simp at hx
    | cons a t =>
      cases y with
      | nil => simp at hy
      | cons b u => simp [isLessThanLoop, leValBytes]
  | succ m ih =>
    intro hx hy
    have hxa : x[m + 1]? = some (x.getD (m + 1) 0) := by
      rw [List.getElem?_eq_getElem hx, List.getD_eq_getElem x 0 hx]
    have hyb' : y[m + 1]? = some (y.getD (m + 1) 0) := by
      rw [List.getElem?_eq_getElem hy, List.getD_eq_getElem y 0 hy]
    have hvx := leValBytes_take_succ x (m + 1) hx
    have hvy := leValBytes_take_succ y (m + 1) hy
    have hAx : leValBytes (x.take (m + 1)) < 256 ^ (m + 1) := by
      have := leValBytes_take_lt x (m + 1) hxb
      have hlen : (x.take (m + 1)).length = m + 1 := by
        rw [List.length_take]; omega
      rwa [hlen] at this
    have hAy : leValBytes (y.take (m + 1)) < 256 ^ (m + 1) := by
      have := leValBytes_take_lt y (m + 1) hyb
      have hlen : (y.take (m + 1)).length = m + 1 := by
        rw [List.length_take]; omega
      rwa [hlen] at this
    by_cases hab : x.getD (m + 1) 0 = y.getD (m + 1) 0
    · have hrec := ih (by omega) (by omega)
      simp only [isLessThanLoop, hxa, hyb', Option.bind_eq_bind, Option.some_bind]
      rw [if_pos hab, hrec, hvx, hvy, hab]
      refine congrArg some (decide_eq_decide.mpr ?_)
      generalize 256 ^ (m + 1) * y.getD (m + 1) 0 = t
      omega
    · simp only [isLessThanLoop, hxa, hyb', Option.bind_eq_bind, Option.some_bind]
      rw [if_neg hab, hvx, hvy]
      refine congrArg some (decide_eq_decide.mpr ?_)
      set C := (256 : Nat) ^ (m + 1) with hC
      constructor
      · intro hlt
        calc leValBytes (x.take (m + 1)) + C * x.getD (m + 1) 0
            < C + C * x.getD (m + 1) 0 := by omega
          _ = C * (x.getD (m + 1) 0 + 1) := by ring
          _ ≤ C * y.getD (m + 1) 0 := Nat.mul_le_mul_left C hlt
          _ ≤ leValBytes (y.take (m + 1)) + C * y.getD (m + 1) 0 := Nat.le_add_left _ _
      · intro hsum
        by_contra hba
        have hba' : y.getD (m + 1) 0 < x.getD (m + 1) 0 := by
          rcases Nat.lt_or_ge (x.getD (m + 1) 0) (y.getD (m + 1) 0) with h | h
          · exact absurd h hba
          · exact lt_of_le_of_ne h fun h2 => hab h2.symm
        have : leValBytes (y.take (m + 1)) + C * y.getD (m + 1) 0
            < leValBytes (x.take (m + 1)) + C * x.getD (m + 1) 0 := by
          calc leValBytes (y.take (m + 1)) + C * y.getD (m + 1) 0
              < C + C * y.getD (m + 1) 0 := by omega
            _ = C * (y.getD (m + 1) 0 + 1) := by ring
            _ ≤ C * x.getD (m + 1) 0 := Nat.mul_le_mul_left C hba'
            _ ≤ leValBytes (x.take (m + 1)) + C * x.getD (m + 1) 0 := Nat.le_add_left _ _
        omega

theorem isLessThanM_eq (x y : List Nat) (hx : x.length = 32) (hy : y.length = 32)
    (hxb : ∀ b ∈ x, b < 256) (hyb : ∀ b ∈ y, b < 256) :
    isLessThanM x y = some (decide (leValBytes x < leValBytes y)) := by
  have h := isLessThanLoop_correct x y hxb hyb 31 (by omega) (by omega)
  rw [isLessThanM, h]
  have hx32 : x.take 32 = x := by rw [← hx]; exact List.take_length x
  have hy32 : y.take 32 = y := by rw [← hy]; exact List.take_length y
  rw [hx32, hy32]

/-! Claim theorems. -/

/-- C2: the reduction law fails.  At the 512-bit input x = 2^252 (limbs
`(0, 0, 0, 2^60, 0, 0, 0, 0)`) the three folding rounds are no-ops, the
final Barrett step computes the quotient estimate q0 = 1, the
subtraction of `q0 * (ℓ - 2^252)` borrows, and the borrow is discarded:
both full mode and short mode return `2^256 - (ℓ - 2^252)`, which is
neither below ℓ nor congruent to x modulo ℓ. -/
theorem red512_drops_final_borrow :
    ellVal ≤ val4 (red512 ⟨0, 0, 0, 2 ^ 60, 0, 0, 0, 0⟩ true) ∧
    ¬ val4 (red512 ⟨0, 0, 0, 2 ^ 60, 0, 0, 0, 0⟩ true) % ellVal
        = val8 ⟨0, 0, 0, 2 ^ 60, 0, 0, 0, 0⟩ % ellVal ∧
    ellVal ≤ val4 (red512 ⟨0, 0, 0, 2 ^ 60, 0, 0, 0, 0⟩ false) ∧
    ¬ val4 (red512 ⟨0, 0, 0, 2 ^ 60, 0, 0, 0, 0⟩ false) % ellVal
        = val4 ⟨0, 0, 0, 2 ^ 60, 0, 0, 0, 0⟩ % ellVal := by
  decide

/-- C5: the multiply-add law fails.  With the canonical scalars r = 0,
k = 2, a = 2^251 (all below ℓ) the accumulator holds 2^252, and the
`red512` full reduction inside `calculateS` returns
`2^256 - (ℓ - 2^252)` instead of `r + k * a mod ℓ = 2^252`; the output
is neither canonical nor congruent to `r + k * a`. -/
theorem calculateS_breaks_mod_law :
    leValBytes (List.replicate 32 0) < ellVal ∧
    leValBytes (2 :: List.replicate 31 0) < ellVal ∧
    leValBytes (List.replicate 31 0 ++ [8]) < ellVal ∧
    ellVal ≤ leValBytes (calculateSbytes (List.replicate 32 0)
      (2 :: List.replicate 31 0) (List.replicate 31 0 ++ [8])) ∧
    ¬ leValBytes (calculateSbytes (List.replicate 32 0)
        (2 :: List.replicate 31 0) (List.replicate 31 0 ++ [8])) % ellVal
      = (leValBytes (List.replicate 32 0) +
          leValBytes (2 :: List.replicate 31 0) *
            leValBytes (List.replicate 31 0 ++ [8])) % ellVal := by
  decide

/-- C4: `Verify` has no signature-length check; on a 32-byte public key
and an empty signature it evaluates `sig[Size:]` with `len(sig) = 0`
and panics (`none` in the embedding) instead of returning false.  The
point-operation and hash parameters are irrelevant: the panic happens
before they are consulted. -/
theorem verify_panics_on_missing_length_check :
    VerifyM (fun _ => (none : Option Unit)) (fun p => p) (fun _ _ _ => [])
      hashZeros (List.replicate 32 0) [] [] = none := by
  decide

/-- C7: the `crypto.Signer` method ignores its `rand` reader entirely
(the two calls may even pass readers of different types), so its output
is a pure function of the key pair, the message and the options; `Sign`
itself is a Lean function of `(seed, message)`, so determinism across
equal inputs holds definitionally. -/
theorem keyPairSign_ignores_rand {R1 R2 : Type} (H fmEnc : List Nat → List Nat)
    (k : KeyPairM) (rnd1 : R1) (rnd2 : R2) (msg : List Nat) (optsHash : Nat) :
    keyPairSign H fmEnc k rnd1 msg optsHash = keyPairSign H fmEnc k rnd2 msg optsHash := rfl

/-- C8: the `crypto.Signer` method rejects any options whose hash
function is non-zero with an error and no signature, and with the zero
hash it returns `Sign`'s signature and no error. -/
theorem keyPairSign_prehash_semantics {R : Type} (H fmEnc : List Nat → List Nat)
    (k : KeyPairM) (rnd : R) (msg : List Nat) (optsHash : Nat) :
    (optsHash ≠ 0 →
      keyPairSign H fmEnc k rnd msg optsHash =
        Except.error ("ed25519: cannot sign hashed message")) ∧
    (optsHash = 0 →
      keyPairSign H fmEnc k rnd msg optsHash =
        Except.ok (SignM H fmEnc k.priv k.pub msg)) := by
  constructor
  · intro h
    simp [keyPairSign, h]
  · intro h
    simp [keyPairSign, h]

/-- C8 witness: the two branches at a concrete key pair and message. -/
theorem keyPairSign_prehash_semantics_witness :
    keyPairSign hashZeros encZeros kpZeros 0 [] 1 =
      Except.error ("ed25519: cannot sign hashed message") ∧
    keyPairSign hashZeros encZeros kpZeros 0 [] 0 =
      Except.ok (SignM hashZeros encZeros kpZeros.priv kpZeros.pub []) :=
  ⟨(keyPairSign_prehash_semantics hashZeros encZeros kpZeros 0 [] 1).1 (by decide),
   (keyPairSign_prehash_semantics hashZeros encZeros kpZeros 0 [] 0).2 rfl⟩

/-- C9: `GetPrivate` returns a fresh copy of the private bytes; writing
any byte of the returned slice leaves the `KeyPair` (held by value)
untouched, and later `GetPrivate`/`GetPublic` calls still return the
key pair's original bytes.  `Sign` and `Verify` read only the by-value
fields, so they are unaffected by construction. -/
theorem getPrivate_returns_independent_copy (st : Store) (k : KeyPairM) (i v : Nat) :
    readSlice (getPrivateM st k).1 (getPrivateM st k).2 = k.priv ∧
    readSlice (getPrivateM (writeSlice (getPrivateM st k).1 (getPrivateM st k).2 i v) k).1
      (getPrivateM (writeSlice (getPrivateM st k).1 (getPrivateM st k).2 i v) k).2 = k.priv ∧
    readSlice (getPublicM (writeSlice (getPrivateM st k).1 (getPrivateM st k).2 i v) k).1
      (getPublicM (writeSlice (getPrivateM st k).1 (getPrivateM st k).2 i v) k).2 = k.pub :=
  ⟨readSlice_alloc st k.priv,
   readSlice_alloc (writeSlice (st ++ [k.priv]) st.length i v) k.priv,
   readSlice_alloc (writeSlice (st ++ [k.priv]) st.length i v) k.pub⟩

/-- C3: for every 32-byte public key, every message, and every 64-byte
signature (of in-range bytes) whose second half has integer value at
least ℓ, `Verify` returns false: the `isLessThan` comparison against
`curve.order` fails before the point operations or the hash are ever
consulted, so the result holds for arbitrary instantiations of those
parameters.  In particular re-encoding a valid signature's S as S + ℓ
yields a value at least ℓ and is rejected. -/
theorem verify_rejects_noncanonical_s {P : Type} (fromBytes : List Nat → Option P)
    (negP : P → P) (dmEnc : P → List Nat → List Nat → List Nat)
    (H : List Nat → List Nat) (pub msg sig : List Nat)
    (hpub : pub.length = 32) (hsig : sig.length = 64)
    (hbytes : ∀ b ∈ sig, b < 256) (hS : ellVal ≤ leValBytes (sig.drop 32)) :
    VerifyM fromBytes negP dmEnc H pub msg sig = some false := by
  have hdlen : (sig.drop 32).length = 32 := by rw [List.length_drop, hsig]
  have hdb : ∀ b ∈ sig.drop 32, b < 256 := fun b hm => hbytes b (List.mem_of_mem_drop hm)
  have holen : orderBytes.length = 32 := by decide
  have hob : ∀ b ∈ orderBytes, b < 256 := by decide
  have hoval : leValBytes orderBytes = ellVal := by decide
  have hlt := isLessThanM_eq (sig.drop 32) orderBytes hdlen holen hdb hob
  rw [hoval] at hlt
  have hdec : decide (leValBytes (sig.drop 32) < ellVal) = false :=
    decide_eq_false (by omega)
  rw [hdec] at hlt
  simp [VerifyM, goSliceFrom, hpub, hsig, hlt]

/-- C3 witness: a concrete signature whose S half encodes exactly ℓ is
rejected by `Verify`. -/
theorem verify_rejects_noncanonical_s_witness :
    (List.replicate 32 0 : List Nat).length = 32 ∧ sigHighS.length = 64 ∧
    (∀ b ∈ sigHighS, b < 256) ∧ ellVal ≤ leValBytes (sigHighS.drop 32) ∧
    VerifyM (fun _ => (none : Option Unit)) (fun p => p) (fun _ _ _ => [])
      hashZeros (List.replicate 32 0) [] sigHighS = some false :=
  ⟨by decide, by decide, by decide, by decide,
   verify_rejects_noncanonical_s (fun _ => (none : Option Unit)) (fun p => p)
     (fun _ _ _ => []) hashZeros (List.replicate 32 0) [] sigHighS
     (by decide) (by decide) (by decide) (by decide)⟩

/-- C6 counterexample: at the concrete hash oracle returning all-zero
digests and the zero seed, the scalar `a` that `Sign` hands to
`calculateS` has value `2^254 ≥ ℓ` (so it is not canonical), and it
differs from the short-mode reduction the claim prescribes: `Sign`
never calls `reduceModOrder` on the clamped scalar. -/
theorem sign_scalar_a_not_reduced_cex :
    ellVal ≤ leValBytes (signScalarA hashZeros (List.replicate 32 0)) ∧
    signScalarA hashZeros (List.replicate 32 0) ≠
      reduceModOrderBytes ((clampBytes (hashZeros (List.replicate 32 0))).take 32) false := by
  decide

/-- C6 (amended): for every 64-byte in-range digest, the scalar `a`
that `Sign` passes to `calculateS` is the clamped low half of
`SHA-512(seed)` with no reduction modulo ℓ: its value always lies in
`[2^254, 2^255)`, hence is never canonical (never below ℓ).  Only
`NewKeyFromSeed` performs the short-mode reduction. -/
theorem sign_scalar_a_not_reduced (H : List Nat → List Nat) (priv : List Nat)
    (hlen : (H priv).length = 64) (hb : ∀ b ∈ H priv, b < 256) :
    2 ^ 254 ≤ leValBytes (signScalarA H priv) ∧
    leValBytes (signScalarA H priv) < 2 ^ 255 ∧
    ellVal ≤ leValBytes (signScalarA H priv) := by
  have hlL : (clampBytes (H priv)).length = 64 := by
    simp [clampBytes, List.length_set, hlen]
  have ht : ((clampBytes (H priv)).take 32).length = 32 := by
    rw [List.length_take, hlL]
    omega
  have hb31 : (clampBytes (H priv)).getD 31 0 = ((H priv).getD 31 0 &&& 127) ||| 64 := by
    have h1 : ((H priv).set 0 ((H priv).getD 0 0 &&& 248)).getD 31 0 = (H priv).getD 31 0 :=
      getD_set_ne _ 0 _ 0 31 (by omega)
    have h2 : 31 < ((H priv).set 0 ((H priv).getD 0 0 &&& 248)).length := by
      rw [List.length_set, hlen]
      omega
    show (((H priv).set 0 ((H priv).getD 0 0 &&& 248)).set 31 _).getD 31 0 = _
    rw [getD_set_self _ 0 _ 31 h2, h1]
  have hrange : 64 ≤ (clampBytes (H priv)).getD 31 0 ∧ (clampBytes (H priv)).getD 31 0 < 128 := by
    rw [hb31]
    have hand : (H priv).getD 31 0 &&& 127 ≤ 127 := Nat.and_le_right
    have hall : ∀ c, c ≤ 127 → 64 ≤ (c ||| 64) ∧ (c ||| 64) < 128 := by decide
    exact hall _ hand
  have hbl : ∀ b ∈ clampBytes (H priv), b < 256 := by
    intro b hm
    rcases List.mem_or_eq_of_mem_set hm with hm2 | rfl
    · rcases List.mem_or_eq_of_mem_set hm2 with hm3 | rfl
      · exact hb b hm3
      · have : (H priv).getD 0 0 &&& 248 ≤ 248 := Nat.and_le_right
        omega
    · have h1 : ((H priv).set 0 ((H priv).getD 0 0 &&& 248)).getD 31 0 &&& 127 ≤ 127 :=
        Nat.and_le_right
      have hall : ∀ c, c ≤ 127 → (c ||| 64) < 128 := by decide
      have := hall _ h1
      omega
  have hg : ((clampBytes (H priv)).take 32).getD 31 0 = (clampBytes (H priv)).getD 31 0 :=
    getD_take 0 _ 32 31 (by omega)
  have hsplit : leValBytes (signScalarA H priv) =
      leValBytes (((clampBytes (H priv)).take 32).take 31) +
        256 ^ 31 * (clampBytes (H priv)).getD 31 0 := by
    have h31 : 31 < ((clampBytes (H priv)).take 32).length := by omega
    have hstep := leValBytes_take_succ ((clampBytes (H priv)).take 32) 31 h31
    have hfull : ((clampBytes (H priv)).take 32).take (31 + 1) = (clampBytes (H priv)).take 32 := by
      simp [List.take_take]
    rw [hfull, hg] at hstep
    rw [signScalarA, hstep]
  have hA : leValBytes (((clampBytes (H priv)).take 32).take 31) < 256 ^ 31 := by
    have hbt : ∀ b ∈ ((clampBytes (H priv)).take 32).take 31, b < 256 := fun b hm =>
      hbl b (List.mem_of_mem_take (List.mem_of_mem_take hm))
    have hl31 : (((clampBytes (H priv)).take 32).take 31).length = 31 := by
      rw [List.length_take, ht]
      omega
    have := leValBytes_lt _ hbt
    rwa [hl31] at this
  have hpow : (256 : Nat) ^ 31 = 2 ^ 248 := by norm_num
  rw [hpow] at hsplit hA
  obtain ⟨h64, h128⟩ := hrange
  refine ⟨?_, ?_, ?_⟩
  · calc (2 : Nat) ^ 254 = 2 ^ 248 * 64 := by norm_num
      _ ≤ 2 ^ 248 * (clampBytes (H priv)).getD 31 0 := Nat.mul_le_mul_left _ h64
      _ ≤ leValBytes (signScalarA H priv) := by omega
  · have hmul : 2 ^ 248 * (clampBytes (H priv)).getD 31 0 ≤ 2 ^ 248 * 127 :=
      Nat.mul_le_mul_left _ (by omega)
    calc leValBytes (signScalarA H priv)
        < 2 ^ 248 + 2 ^ 248 * (clampBytes (H priv)).getD 31 0 := by omega
      _ ≤ 2 ^ 248 + 2 ^ 248 * 127 := by omega
      _ = 2 ^ 255 := by norm_num
  · have hle : ellVal ≤ 2 ^ 254 := by decide
    calc ellVal ≤ 2 ^ 254 := hle
      _ = 2 ^ 248 * 64 := by norm_num
      _ ≤ 2 ^ 248 * (clampBytes (H priv)).getD 31 0 := Nat.mul_le_mul_left _ h64
      _ ≤ leValBytes (signScalarA H priv) := by omega

/-- C6 witness: the amended bounds at the concrete all-zero hash
oracle and seed. -/
theorem sign_scalar_a_not_reduced_witness :
    (hashZeros (List.replicate 32 0)).length = 64 ∧
    (2 ^ 254 ≤ leValBytes (signScalarA hashZeros (List.replicate 32 0)) ∧
     leValBytes (signScalarA hashZeros (List.replicate 32 0)) < 2 ^ 255 ∧
     ellVal ≤ leValBytes (signScalarA hashZeros (List.replicate 32 0))) :=
  ⟨by decide,
   sign_scalar_a_not_reduced hashZeros (List.replicate 32 0) (by decide) (by decide)⟩

/-- C10: `NewKeyFromSeed` snapshots the caller's 32-byte slice: it
returns the store unchanged (it writes nothing), the resulting
`KeyPair` is a pure value determined by the bytes read at call time
(so later signatures cannot be affected by the caller), and after
mutating the caller's slice a `GetPrivate` call still returns the
original seed bytes. -/
theorem newKeyFromSeed_detached_copy (H fmEnc : List Nat → List Nat)
    (st : Store) (h i v : Nat) (hl : (readSlice st h).length = 32) :
    newKeyFromSeedM H fmEnc st h =
      some (st, { priv := readSlice st h,
                  pub := fmEnc (reduceModOrderBytes
                    ((clampBytes (H (readSlice st h))).take 32) false) }) ∧
    readSlice
      (getPrivateM (writeSlice st h i v)
        { priv := readSlice st h,
          pub := fmEnc (reduceModOrderBytes
            ((clampBytes (H (readSlice st h))).take 32) false) }).1
      (getPrivateM (writeSlice st h i v)
        { priv := readSlice st h,
          pub := fmEnc (reduceModOrderBytes
            ((clampBytes (H (readSlice st h))).take 32) false) }).2 = readSlice st h := by
  constructor
  · simp [newKeyFromSeedM, hl]
  · exact readSlice_alloc _ _

/-- C10 witness: the snapshot behaviour at a concrete one-slice store. -/
theorem newKeyFromSeed_detached_copy_witness :
    (readSlice stZeros 0).length = 32 ∧
    (newKeyFromSeedM hashZeros encZeros stZeros 0 =
      some (stZeros, { priv := readSlice stZeros 0,
                       pub := encZeros (reduceModOrderBytes
                         ((clampBytes (hashZeros (readSlice stZeros 0))).take 32) false) }) ∧
     readSlice
       (getPrivateM (writeSlice stZeros 0 0 7)
         { priv := readSlice stZeros 0,
           pub := encZeros (reduceModOrderBytes
             ((clampBytes (hashZeros (readSlice stZeros 0))).take 32) false) }).1
       (getPrivateM (writeSlice stZeros 0 0 7)
         { priv := readSlice stZeros 0,
           pub := encZeros (reduceModOrderBytes
             ((clampBytes (hashZeros (readSlice stZeros 0))).take 32) false) }).2
       = readSlice stZeros 0) :=
  ⟨by decide, newKeyFromSeed_detached_copy hashZeros encZeros stZeros 0 0 7 (by decide)⟩

end Ed25519
